import Mathlib

/-!
Verification of the compaction engine and checkpoint producer of an LSM storage
engine (files `compaction.go` and `checkpoint.go`).

The Go code is shallowly embedded: user keys, suffixes and sequence numbers are
modelled as `Nat`, byte-slice comparisons become `Nat` comparisons, fallible
code returns `Except`/`Option`, and stateful loops become structural recursion.
Functions that live outside the two provided source files (the `rangekey`,
`compact` and `base` helper packages) are modelled from the specification text
and marked as such in their doc comments.
-/

namespace Pebble

/-! ### Range-key snapshot transform (`rangeKeyCompactionTransform`) -/

/-- Kinds of range keys handled by the snapshot transform
(`InternalKeyKindRangeKeySet`, `InternalKeyKindRangeKeyUnset`,
`InternalKeyKindRangeKeyDelete`). -/
inductive RangeKeyKind where
  | rkSet
  | rkUnset
  | rkDel
  deriving DecidableEq, Repr

/-- One range key of a span, as seen by the transformer: its sequence number,
kind, suffix and value.  The keys of a span are ordered by descending
`(seq, kind)`. -/
structure RKey where
  seq : Nat
  kind : RangeKeyKind
  suffix : Nat
  value : Nat
  deriving DecidableEq, Repr

/-- Modelled from the spec: `base.Visible(seqNum, snapshot, batchSnapshot)` for
non-batch sequence numbers — a key is visible to a snapshot exactly when its
sequence number is strictly below the snapshot's. -/
def visible (seq snapshot : Nat) : Bool :=
  seq < snapshot

/-- Inner loop of the model of `rangekey.Coalesce`: `seen` collects the
suffixes already defined (by a more recent set or unset) in this stripe. -/
def coalesceGo (seen : List Nat) : List RKey → List RKey
  | [] => []
  | k :: ks =>
    match k.kind with
    | .rkDel => [k]
    | _ =>
      if seen.contains k.suffix then coalesceGo seen ks
      else k :: coalesceGo (k.suffix :: seen) ks

/-- Modelled from the spec: `rangekey.Coalesce` (the `rangekey` package is not
among the provided sources).  Within one snapshot stripe, keys arrive in
descending `(seq, kind)` order; the highest-seq `RangeKeySet` at each suffix
wins, a `RangeKeyUnset` at a suffix shadows lower `RangeKeySet`s at the same
suffix, and a `RangeKeyDelete` shadows everything lower in the stripe. -/
def coalesce (keys : List RKey) : List RKey :=
  coalesceGo [] keys

/-- Is this key a `RangeKeyUnset` or `RangeKeyDelete`? -/
def isUnsetOrDel (k : RKey) : Bool :=
  k.kind == .rkUnset || k.kind == .rkDel

/-- The `elideInLastStripe` closure of `rangeKeyCompactionTransform`
(compaction.go:190-203): drop unsets and deletes when
`elideRangeKey(span.Start, span.End)` holds. -/
def elideInLastStripe (elide : Bool) (keys : List RKey) : List RKey :=
  keys.filter (fun k => !(elide && isUnsetOrDel k))

/-- The partition loop of `rangeKeyCompactionTransform` (compaction.go:210-236),
recursing over the snapshot list from the largest snapshot down (`i` runs from
`len(snapshots)-1` to `0`); the `[]` case is the trailing `if j < len(s.Keys)`
block.  `elide` is `elideRangeKey(s.Start, s.End)`. -/
def transformGo (elide : Bool) : List Nat → List RKey → List RKey
  | [], keys =>
    if keys.isEmpty then [] else elideInLastStripe elide (coalesce keys)
  | snap :: rest, keys =>
    (if (keys.takeWhile (fun k => !visible k.seq snap)).isEmpty then []
     else if (keys.dropWhile (fun k => !visible k.seq snap)).isEmpty then
       elideInLastStripe elide
         (coalesce (keys.takeWhile (fun k => !visible k.seq snap)))
     else coalesce (keys.takeWhile (fun k => !visible k.seq snap)))
    ++ transformGo elide rest (keys.dropWhile (fun k => !visible k.seq snap))

/-- `rangeKeyCompactionTransform` (compaction.go:186-239) applied to one span
`[sStart, sEnd)` whose keys are in descending `(seq, kind)` order, with an
ascending snapshot list. -/
def rangeKeyCompactionTransform (elideRangeKey : Nat → Nat → Bool)
    (snapshots : List Nat) (sStart sEnd : Nat) (keys : List RKey) : List RKey :=
  transformGo (elideRangeKey sStart sEnd) snapshots.reverse keys

/-- The snapshot stripe of a sequence number: the smallest snapshot strictly
greater than it (`none` stands for the stripe including plus infinity).  For
the ascending snapshot lists the engine maintains, the head of the filtered
list is that smallest snapshot. -/
def stripeOf (snapshots : List Nat) (seq : Nat) : Option Nat :=
  (snapshots.filter (fun s => seq < s)).head?

/-- Stripe identifiers in the order the transform emits them: the stripe
including plus infinity first, then stripes by descending snapshot. -/
def stripeIdsNewestFirst (snapshots : List Nat) : List (Option Nat) :=
  none :: (snapshots.reverse.map some)

/-- Processing of one stripe `t` in a by-stripe description of the transform:
coalesce the stripe's keys, and elide unsets/deletes exactly when `t` is the
designated elision stripe `lastStripe`. -/
def stripeProcess (elide : Bool) (lastStripe : Option (Option Nat))
    (snapshots : List Nat) (keys : List RKey) (t : Option Nat) : List RKey :=
  if (keys.filter (fun k => stripeOf snapshots k.seq == t)).isEmpty then []
  else if lastStripe == some t then
    elideInLastStripe elide
      (coalesce (keys.filter (fun k => stripeOf snapshots k.seq == t)))
  else coalesce (keys.filter (fun k => stripeOf snapshots k.seq == t))

/-- The range-key transform exactly as claim C1 words it: partition by stripe,
coalesce each stripe, and elide unsets/deletes (when `elideRangeKey` holds)
in the stripe including plus infinity. -/
def claimC1Transform (elideRangeKey : Nat → Nat → Bool) (snapshots : List Nat)
    (sStart sEnd : Nat) (keys : List RKey) : List RKey :=
  (stripeIdsNewestFirst snapshots).flatMap
    (stripeProcess (elideRangeKey sStart sEnd) (some none) snapshots keys)

/-- The amended by-stripe description of the transform: as `claimC1Transform`,
except that the elision stripe is the stripe containing the span's oldest
key (the last nonempty stripe), not the stripe including plus infinity. -/
def amendedC1Transform (elideRangeKey : Nat → Nat → Bool) (snapshots : List Nat)
    (sStart sEnd : Nat) (keys : List RKey) : List RKey :=
  (stripeIdsNewestFirst snapshots).flatMap
    (stripeProcess (elideRangeKey sStart sEnd)
      (keys.getLast?.map (fun k => stripeOf snapshots k.seq)) snapshots keys)

/-! ### Delete-compaction hints (`deleteCompactionHint.canDelete`,
`DB.maybeUpdateDeleteCompactionHints`) -/

/-- `deleteCompactionHintType` (compaction.go:2063-2072). -/
inductive DeleteCompactionHintType where
  | unknownHint
  | pointKeyOnly
  | rangeKeyOnly
  | pointAndRangeKey
  deriving DecidableEq, Repr

/-- The fields of `fileMetadata` used by the compaction code modelled here.
User keys and sequence numbers are `Nat`s. -/
structure FileMeta where
  fileNum : Nat
  size : Nat
  smallestUserKey : Nat
  largestUserKey : Nat
  smallestSeqNum : Nat
  largestSeqNum : Nat
  hasPointKeys : Bool
  hasRangeKeys : Bool
  virtual : Bool
  deriving DecidableEq, Repr

/-- `deleteCompactionHint` (compaction.go:2113-2141).  `start`/`endKey` bound
the deleted user-key range `[start, endKey)`. -/
structure DeleteCompactionHint where
  hintType : DeleteCompactionHintType
  start : Nat
  endKey : Nat
  tombstoneLargestSeqNum : Nat
  tombstoneSmallestSeqNum : Nat
  fileSmallestSeqNum : Nat
  deriving DecidableEq, Repr

/-- Modelled from the spec: `compact.Snapshots.Index` (the `compact` package is
not among the provided sources) — the index of the first snapshot strictly
greater than `seq`, i.e. the sequence number's snapshot stripe.   For the
ascending snapshot lists the engine maintains, `findIdx` coincides with the
binary search `sort.Search`. -/
def snapshotIndex (snapshots : List Nat) (seq : Nat) : Nat :=
  snapshots.findIdx (fun s => seq < s)

/-- `deleteCompactionHint.canDelete` (compaction.go:2152-2193). `none` models
the `panic` on an unknown hint type. -/
def canDelete (h : DeleteCompactionHint) (m : FileMeta) (snapshots : List Nat) :
    Option Bool :=
  if h.tombstoneSmallestSeqNum ≤ m.largestSeqNum
      || m.smallestSeqNum < h.fileSmallestSeqNum then
    some false
  else if !(snapshotIndex snapshots h.tombstoneLargestSeqNum
      == snapshotIndex snapshots m.smallestSeqNum) then
    some false
  else
    let boundsOk := decide (h.start ≤ m.smallestUserKey)
      && decide (m.largestUserKey < h.endKey)
    match h.hintType with
    | .unknownHint => none
    | .pointKeyOnly => if m.hasRangeKeys then some false else some boundsOk
    | .rangeKeyOnly => if m.hasPointKeys then some false else some boundsOk
    | .pointAndRangeKey => some boundsOk

/-- The fields of a `compaction` used by
`DB.maybeUpdateDeleteCompactionHints`: whether sequence numbers were zeroed,
its user-key bounds, and the input files by level. -/
structure HintCompaction where
  allowedZeroSeqNum : Bool
  smallestUserKey : Nat
  largestUserKey : Nat
  inputs : List (List FileMeta)
  deriving Repr

/-- `DB.maybeUpdateDeleteCompactionHints` (compaction.go:2195-2242) as a
function from the current hint list to the updated one. -/
def maybeUpdateDeleteCompactionHints (c : HintCompaction)
    (hints : List DeleteCompactionHint) : List DeleteCompactionHint :=
  if !c.allowedZeroSeqNum then hints
  else
    hints.filter fun h =>
      (decide (h.endKey < c.smallestUserKey) || decide (c.largestUserKey < h.start))
      || c.inputs.all fun files =>
           files.all fun f => decide (f.largestSeqNum < h.tombstoneSmallestSeqNum)

/-! ### Output bounds and user-key disjointness
(`compaction.errorOnUserKeyOverlap`, `finishOutput`) -/

/-- The bounds of one output sstable as used by the `finishOutput` sanity
checks: its smallest and largest user keys, and whether the largest boundary
is an exclusive sentinel (a range tombstone or range key end). -/
structure OutputMeta where
  smallest : Nat
  largest : Nat
  largestExclusive : Bool
  deriving DecidableEq, Repr

/-- `compaction.errorOnUserKeyOverlap` (compaction.go:761-774) for the last
two written sstables `prevMeta` and `meta`. -/
def errorOnUserKeyOverlap (prevMeta meta : OutputMeta) : Except String Unit :=
  if !prevMeta.largestExclusive && decide (meta.smallest ≤ prevMeta.largest) then
    .error "pebble: compaction split user key across two sstables"
  else .ok ()

/-- The bounds sanity check of `finishOutput` (compaction.go:3123-3147):
the output's bounds must not escape the compaction's input bounds
`[cSmallest, cLargest]` (each check is skipped when the corresponding
compaction bound is nil). -/
def checkOutputBounds (cSmallest cLargest : Option Nat) (meta : OutputMeta) :
    Except String Unit := do
  match cSmallest with
  | some s =>
    if meta.smallest < s then
      throw "pebble: compaction output grew beyond bounds of input"
  | none => pure ()
  match cLargest with
  | some l =>
    if l < meta.largest then
      throw "pebble: compaction output grew beyond bounds of input"
  | none => pure ()

/-- The per-output checks of `finishOutput` relevant to the bound and
user-key-disjointness invariants (compaction.go:3123-3152): the bounds check
followed by `errorOnUserKeyOverlap` against the previous output, if any. -/
def finishOutputChecks (cSmallest cLargest : Option Nat)
    (prevMeta : Option OutputMeta) (meta : OutputMeta) : Except String Unit := do
  checkOutputBounds cSmallest cLargest meta
  match prevMeta with
  | some prev => errorOnUserKeyOverlap prev meta
  | none => pure ()

/-- All per-output checks over a compaction's outputs in emission order,
threading the previous output exactly as `ve.NewFiles` does. -/
def checkAllOutputs (cSmallest cLargest : Option Nat) :
    Option OutputMeta → List OutputMeta → Except String Unit
  | _, [] => .ok ()
  | prev, o :: os => do
    finishOutputChecks cSmallest cLargest prev o
    checkAllOutputs cSmallest cLargest (some o) os

/-- A user key `u` appears in an output: it lies within the output's bounds,
where an exclusive-sentinel largest bound does not itself contain the key. -/
def outputContains (o : OutputMeta) (u : Nat) : Prop :=
  o.smallest ≤ u ∧ (u < o.largest ∨ (u = o.largest ∧ o.largestExclusive = false))

/-! ### `finishOutput`: emission of pending range tombstones and range keys -/

/-- A pending span (range tombstone or range key fragment) held by a
fragmenter: the user-key interval `[start, stop)`. -/
structure PendingSpan where
  start : Nat
  stop : Nat
  deriving DecidableEq, Repr

/-- Modelled from the spec: `compact.Iter.TombstonesUpTo` /
`compact.Iter.RangeKeysUpTo` (the `compact` package is not among the provided
sources) — the pending spans starting strictly below the split key, truncated
to end no later than it; a nil split key returns every pending span. -/
def spansUpTo (splitKey : Option Nat) (spans : List PendingSpan) :
    List PendingSpan :=
  match splitKey with
  | none => spans
  | some sk =>
    (spans.filter (fun s => decide (s.start < sk))).map
      (fun s => ⟨s.start, min s.stop sk⟩)

/-- The start of the first pending span consulted by `finishOutput`
(compaction.go:2968-2976): the first pending range tombstone's start, or,
when no tombstone is pending, the first pending range key's start. -/
def firstPendingStart (tombstones rangeKeys : List PendingSpan) : Option Nat :=
  match tombstones.head? with
  | some t => some t.start
  | none => rangeKeys.head?.map (fun s => s.start)

/-- The span-emission behaviour of `finishOutput` (compaction.go:2955-3022):
when no point key was written (`twOpen = false`) and the first pending span's
start equals the split key, nothing is emitted; otherwise the pending
tombstones and range keys up to the split key are emitted (opening the writer
if any span is emitted).  Returns (emitted tombstones, emitted range keys). -/
def finishOutputSpans (twOpen : Bool) (splitKey : Option Nat)
    (tombstones rangeKeys : List PendingSpan) :
    List PendingSpan × List PendingSpan :=
  if !twOpen
      && splitKey.isSome
      && (firstPendingStart tombstones rangeKeys == splitKey) then
    ([], [])
  else
    (spansUpTo splitKey tombstones, spansUpTo splitKey rangeKeys)

/-- The range-tombstone truncation check of `finishOutput`
(compaction.go:3102-3111): error when the largest emitted range-tombstone key
extends beyond the split key. -/
def rangeDelTruncationCheck (splitKey : Option Nat)
    (emittedTombstones : List PendingSpan) : Except String Unit :=
  match splitKey, (emittedTombstones.map (fun s => s.stop)).max? with
  | some sk, some m =>
    if sk < m then
      .error "pebble: invariant violation: rangedel largest key extends beyond split key"
    else .ok ()
  | _, _ => .ok ()

/-- The span-emission behaviour exactly as claim C5 words it: all pending
spans starting strictly below the split key are emitted, except that nothing
is emitted when the output would contain only spans and no pending span has a
start differing from the split key. -/
def claimC5FinishOutputSpans (twOpen : Bool) (splitKey : Option Nat)
    (tombstones rangeKeys : List PendingSpan) :
    List PendingSpan × List PendingSpan :=
  if !twOpen
      && splitKey.isSome
      && (tombstones ++ rangeKeys).all (fun s => some s.start == splitKey) then
    ([], [])
  else
    (spansUpTo splitKey tombstones, spansUpTo splitKey rangeKeys)

/-! ### Elision predicates and flushes (`compaction.elideTombstone`,
`compaction.elideRangeTombstone`, `compaction.allowZeroSeqNum`) -/

/-- `manifest.UserKeyRange`: one disjoint in-use user-key interval
`[start, endKey]` (the end is inclusive for `elideTombstone`). -/
structure UserKeyRange where
  start : Nat
  endKey : Nat
  deriving DecidableEq, Repr

/-- The fields of a `compaction` used by the elision predicates: the
flushables being flushed (empty for a table compaction), the testing knob
`disableSpanElision`, the in-use key ranges and whether they cover the whole
compaction range, and the compaction's user-key bounds. -/
structure ElisionCompaction where
  flushing : List Unit
  disableSpanElision : Bool
  inuseEntireRange : Bool
  inuseKeyRanges : List UserKeyRange
  smallestUserKey : Nat
  largestUserKey : Nat
  deriving Repr

/-- The cursor loop of `compaction.elideTombstone` (compaction.go:794-802),
walking `inuseKeyRanges` from the saved index; returns the result and the new
`elideTombstoneIndex`. -/
def elideTombstoneGo (key : Nat) : List UserKeyRange → Nat → Bool × Nat
  | [], idx => (true, idx)
  | r :: rest, idx =>
    if key ≤ r.endKey then
      if r.start ≤ key then (false, idx) else (true, idx)
    else elideTombstoneGo key rest (idx + 1)

/-- `compaction.elideTombstone` (compaction.go:789-804).  The mutable cursor
`c.elideTombstoneIndex` is passed and returned explicitly. -/
def elideTombstone (c : ElisionCompaction) (idx : Nat) (key : Nat) :
    Bool × Nat :=
  if c.inuseEntireRange || !c.flushing.isEmpty then (false, idx)
  else elideTombstoneGo key (c.inuseKeyRanges.drop idx) idx

/-- `compaction.elideRangeTombstone` (compaction.go:810-839).  `findIdx`
models `sort.Search` over the sorted disjoint `inuseKeyRanges`. -/
def elideRangeTombstone (c : ElisionCompaction) (start stop : Nat) : Bool :=
  if c.disableSpanElision || !c.flushing.isEmpty then false
  else
    let lower := c.inuseKeyRanges.findIdx (fun r => start ≤ r.endKey)
    let upper := c.inuseKeyRanges.findIdx (fun r => stop < r.start)
    upper ≤ lower

/-- `compaction.allowZeroSeqNum` (compaction.go:780-782). -/
def allowZeroSeqNum (c : ElisionCompaction) : Bool :=
  elideRangeTombstone c c.smallestUserKey c.largestUserKey

/-! ### Move/copy conversion (`newCompaction`, `DB.runMoveOrCopyCompaction`) -/

/-- `compactionKind` (compaction.go:140-156). -/
inductive CompactionKind where
  | cDefault
  | cFlush
  | cMove
  | cCopy
  | cDeleteOnly
  | cElisionOnly
  | cRead
  | cRewrite
  | cIngestedFlushable
  deriving DecidableEq, Repr

/-- `compaction.hasExtraLevelData` (compaction.go:672-683): a multilevel
compaction carries data in its first intermediate input level. -/
def hasExtraLevelData (extraLevels : List (List FileMeta)) : Bool :=
  match extraLevels with
  | [] => false
  | l0 :: _ => !l0.isEmpty

/-- The kind-conversion step of `newCompaction` (compaction.go:433-464).
`isRemote` is the result of the `objstorage.IsLocalTable` lookup on the input
file's backing (false when no provider is passed) and `shouldCreateShared`
the result of `remote.ShouldCreateShared` for the output level. -/
def newCompactionKind (pcKind : CompactionKind)
    (startFiles outputFiles : List FileMeta)
    (extraLevels : List (List FileMeta))
    (grandparentsSize maxOverlapBytes : Nat)
    (isRemote shouldCreateShared : Bool) : CompactionKind :=
  if pcKind == .cDefault && outputFiles.isEmpty && !hasExtraLevelData extraLevels
      && startFiles.length == 1 && grandparentsSize ≤ maxOverlapBytes then
    let mustCopy := !isRemote && shouldCreateShared
    if mustCopy then
      match startFiles.head? with
      | some meta => if !meta.virtual then .cCopy else pcKind
      | none => pcKind
    else .cMove
  else pcKind

/-- The conversion exactly as claim C7 words it, which omits the
`hasExtraLevelData` condition of the source. -/
def claimC7NewCompactionKind (pcKind : CompactionKind)
    (startFiles outputFiles : List FileMeta)
    (grandparentsSize maxOverlapBytes : Nat)
    (isRemote shouldCreateShared : Bool) : CompactionKind :=
  if pcKind == .cDefault && outputFiles.isEmpty
      && startFiles.length == 1 && grandparentsSize ≤ maxOverlapBytes then
    let mustCopy := !isRemote && shouldCreateShared
    if mustCopy then
      match startFiles.head? with
      | some meta => if !meta.virtual then .cCopy else pcKind
      | none => pcKind
    else .cMove
  else pcKind

/-- A version edit as produced by the move/copy/delete-only runners: deleted
files as (level, file number) pairs and new files as (level, metadata)
pairs. -/
structure VersionEditM where
  deletedFiles : List (Nat × Nat)
  newFiles : List (Nat × FileMeta)
  deriving DecidableEq, Repr

/-- `DB.runMoveOrCopyCompaction` (compaction.go:2646-2683) specialised to a
move compaction: its version edit, and the pending outputs (none for a
move).  `cancel` is the compaction's cancellation flag. -/
def runMoveCompaction (cancel : Bool) (startLevel outputLevel : Nat)
    (meta : FileMeta) : Except String (VersionEditM × List FileMeta) :=
  if cancel then .error "pebble: compaction cancelled by a concurrent excise or ingest-split"
  else .ok (⟨[(startLevel, meta.fileNum)], [(outputLevel, meta)]⟩, [])

/-! ### Checkpoint manifest (`DB.writeCheckpointManifest`) -/

/-- One record of the source MANIFEST: its encoded size in bytes and an
abstract payload. -/
structure MRecord where
  size : Nat
  payload : Nat
  deriving DecidableEq, Repr

/-- A record of the checkpoint's MANIFEST: either a record copied from the
source manifest, or the synthetic version edit appended at the end. -/
inductive CheckpointRecord where
  | copied (r : MRecord)
  | syntheticEdit (deletedFiles : List (Nat × Nat)) (removedBackingTables : List Nat)
  deriving DecidableEq, Repr

/-- The record-granularity copy of `DB.writeCheckpointManifest`
(checkpoint.go:456-474): the `record.Reader` over a `LimitedReader` of
`manifestSize` bytes yields the records wholly contained in that prefix. -/
def recordsUpTo (budget : Nat) : List MRecord → List MRecord
  | [] => []
  | r :: rs =>
    if r.size ≤ budget then r :: recordsUpTo (budget - r.size) rs else []

/-- `DB.writeCheckpointManifest` (checkpoint.go:419-497) as a function to the
list of records of the checkpoint's manifest: the copied prefix, plus the
synthetic version edit — appended only when the excluded-file set is
non-empty (checkpoint.go:476-490). -/
def writeCheckpointManifest (srcRecords : List MRecord) (manifestSize : Nat)
    (excludedFiles : List (Nat × Nat)) (removeBackingTables : List Nat) :
    List CheckpointRecord :=
  (recordsUpTo manifestSize srcRecords).map .copied
    ++ (if excludedFiles.isEmpty then []
        else [.syntheticEdit excludedFiles removeBackingTables])

/-- The computation of the backings to remove (checkpoint.go:368-375): the
virtual backings of the captured version not required by any included
virtual file. -/
def computeRemoveBackingTables (virtualBackingFiles requiredVirtualBackingFiles : List Nat) :
    List Nat :=
  virtualBackingFiles.filter (fun n => !requiredVirtualBackingFiles.contains n)

/-- The checkpoint manifest exactly as claim C8 words it: the synthetic edit
is appended whenever there are excluded files or unused virtual backings. -/
def claimC8WriteCheckpointManifest (srcRecords : List MRecord) (manifestSize : Nat)
    (excludedFiles : List (Nat × Nat)) (removeBackingTables : List Nat) :
    List CheckpointRecord :=
  (recordsUpTo manifestSize srcRecords).map .copied
    ++ (if excludedFiles.isEmpty && removeBackingTables.isEmpty then []
        else [.syntheticEdit excludedFiles removeBackingTables])

/-! ### Clearing compacting state (`DB.clearCompactingState`) -/

/-- `manifest.CompactionState`. -/
inductive CompactionState where
  | notCompacting
  | compacting
  | compacted
  deriving DecidableEq, Repr

/-- The per-file state touched by `DB.clearCompactingState`. -/
structure CFile where
  compactionState : CompactionState
  isIntraL0Compacting : Bool
  deriving DecidableEq, Repr

/-- The per-file update of `DB.clearCompactingState` (compaction.go:1213-1234).
The `Fatalf` on a file that is not being compacted is modelled as an error. -/
def clearFileState (kind : CompactionKind) (rollback : Bool) (f : CFile) :
    Except String CFile :=
  if !(f.compactionState == .compacting) then
    .error "pebble: file not being compacted"
  else
    .ok { f with
      compactionState :=
        if !rollback then
          if kind != .cMove then .compacted else .notCompacting
        else .notCompacting,
      isIntraL0Compacting := false }

/-- The inner loop of `DB.clearCompactingState` over the files of one input
level (compaction.go:1214-1234). -/
def clearFilesState (kind : CompactionKind) (rollback : Bool) :
    List CFile → Except String (List CFile)
  | [] => .ok []
  | f :: fs => do
    let f' ← clearFileState kind rollback f
    let fs' ← clearFilesState kind rollback fs
    pure (f' :: fs')

/-- `DB.clearCompactingState` (compaction.go:1211-1235) over the compaction's
inputs (a list of levels, each a list of files). -/
def clearCompactingState (kind : CompactionKind) (rollback : Bool) :
    List (List CFile) → Except String (List (List CFile))
  | [] => .ok []
  | files :: rest => do
    let files' ← clearFilesState kind rollback files
    let rest' ← clearCompactingState kind rollback rest
    pure (files' :: rest')

/-- The compaction state every input file ends in when
`DB.clearCompactingState` succeeds: `NotCompacting` on rollback,
`NotCompacting` on a successful move compaction, `Compacted` on every other
successful compaction. -/
def expectedClearedState (kind : CompactionKind) (rollback : Bool) :
    CompactionState :=
  if rollback then .notCompacting
  else if kind = .cMove then .notCompacting
  else .compacted

/-! ### Checkpoint destination-directory check (`DB.Checkpoint`) -/

/-- Outcome of the `Stat(destDir)` probe at the top of `DB.Checkpoint`. -/
inductive StatResult where
  | found
  | notFound
  | statError (e : Nat)
  deriving DecidableEq, Repr

/-- The filesystem-visible actions of `DB.Checkpoint` at the granularity this
model needs. -/
inductive CkAction where
  | statDest
  | logData
  | mkdirDest
  | copyWork
  | removeAllDest
  deriving DecidableEq, Repr

/-- The errors `DB.Checkpoint` can return in this model: the `os.PathError`
wrapping `ErrExist`, a failed stat, or a failure of a later step. -/
inductive CkError where
  | destExists
  | statFailed (e : Nat)
  | stepFailed (e : Nat)
  deriving DecidableEq, Repr

/-- The control flow of `DB.Checkpoint` (checkpoint.go:158-416) at the
granularity of claim C10: the `Stat` existence check (checkpoint.go:171-180),
the optional WAL flush, the deferred `RemoveAll` cleanup installed just before
the destination directory is created (checkpoint.go:244-257), directory
creation, and the remaining copy work.  `flushWAL`, `walOk`, `mkdirOk` and
`restOk` are the oracle outcomes of the corresponding steps.  Returns the
result and the list of filesystem actions performed, in order. -/
def checkpointRun (statRes : StatResult) (flushWAL walOk mkdirOk restOk : Bool) :
    Option CkError × List CkAction :=
  match statRes with
  | .found => (some .destExists, [.statDest])
  | .statError e => (some (.statFailed e), [.statDest])
  | .notFound =>
    if flushWAL && !walOk then (some (.stepFailed 0), [.statDest, .logData])
    else
      let pre := [CkAction.statDest] ++ (if flushWAL then [CkAction.logData] else [])
      if !mkdirOk then
        (some (.stepFailed 1), pre ++ [.mkdirDest, .removeAllDest])
      else if !restOk then
        (some (.stepFailed 2), pre ++ [.mkdirDest, .copyWork, .removeAllDest])
      else (none, pre ++ [.mkdirDest, .copyWork])

/-! ## Theorems -/

/-- Claim C2: for every deletion hint `h`, file metadata `m` and snapshot
list, `canDelete` returns true exactly when: the file's largest seqnum is
strictly below the hint's smallest tombstone seqnum; the file's smallest
seqnum is at least the hint's recorded file-smallest seqnum; the hint's
largest tombstone seqnum and the file's smallest seqnum share a snapshot
stripe; the hint type matches (a point-only hint cannot delete a file with
range keys, a range-key-only hint cannot delete a file with point keys); and
the file's user-key bounds are contained in `[h.start, h.endKey)` with the
largest user key strictly below `h.endKey`. -/
theorem canDelete_iff (h : DeleteCompactionHint) (m : FileMeta)
    (snapshots : List Nat) (htype : h.hintType ≠ .unknownHint) :
    canDelete h m snapshots = some true ↔
      m.largestSeqNum < h.tombstoneSmallestSeqNum ∧
      h.fileSmallestSeqNum ≤ m.smallestSeqNum ∧
      snapshotIndex snapshots h.tombstoneLargestSeqNum
        = snapshotIndex snapshots m.smallestSeqNum ∧
      (h.hintType = .pointKeyOnly → m.hasRangeKeys = false) ∧
      (h.hintType = .rangeKeyOnly → m.hasPointKeys = false) ∧
      h.start ≤ m.smallestUserKey ∧ m.largestUserKey < h.endKey := by
  by_cases h1 : h.tombstoneSmallestSeqNum ≤ m.largestSeqNum <;>
    by_cases h2 : m.smallestSeqNum < h.fileSmallestSeqNum <;>
    by_cases h3 : snapshotIndex snapshots h.tombstoneLargestSeqNum
        = snapshotIndex snapshots m.smallestSeqNum <;>
    cases hk : h.hintType <;>
    first
      | exact absurd hk htype
      | cases hrk : m.hasRangeKeys <;> cases hpk : m.hasPointKeys <;>
          simp [canDelete, hk, hrk, hpk, h1, h2, h3] <;> omega

/-- Witness for `canDelete_iff` at a concrete hint, file and snapshot list. -/
theorem canDelete_iff_witness :
    canDelete ⟨.pointKeyOnly, 2, 10, 6, 5, 1⟩
        ⟨7, 0, 3, 8, 2, 4, true, false, false⟩ [9] = some true :=
  (canDelete_iff ⟨.pointKeyOnly, 2, 10, 6, 5, 1⟩
    ⟨7, 0, 3, 8, 2, 4, true, false, false⟩ [9] (by decide)).mpr (by decide)

/-- Claim C3: after a compaction that set `allowedZeroSeqNum`, a hint is
dropped exactly when its (closed) key span overlaps the compaction's key
bounds and at least one input file has largest seqnum at least the hint's
smallest tombstone seqnum; hints with disjoint spans and hints whose
tombstones are newer than every input are kept, and when `allowedZeroSeqNum`
is false the whole hint list is kept unchanged. -/
theorem maybeUpdateDeleteCompactionHints_spec (c : HintCompaction)
    (hints : List DeleteCompactionHint) :
    maybeUpdateDeleteCompactionHints c hints =
      if c.allowedZeroSeqNum then
        hints.filter fun h =>
          !((decide (c.smallestUserKey ≤ h.endKey)
              && decide (h.start ≤ c.largestUserKey))
            && c.inputs.any fun files =>
                 files.any fun f =>
                   decide (h.tombstoneSmallestSeqNum ≤ f.largestSeqNum))
      else hints := by
  unfold maybeUpdateDeleteCompactionHints
  cases hz : c.allowedZeroSeqNum
  · simp
  · simp only [Bool.not_true, Bool.false_eq_true, if_false, if_true]
    apply List.filter_congr
    intro h _
    rw [Bool.eq_iff_iff]
    simp only [Bool.or_eq_true, Bool.and_eq_true, Bool.not_eq_true',
      Bool.and_eq_false_iff, List.all_eq_true, List.any_eq_true,
      List.any_eq_false, decide_eq_true_eq, decide_eq_false_iff_not]
    constructor
    · rintro ((h1 | h1) | h2)
      · left; left; omega
      · left; right; omega
      · right; intro files hfmem ⟨f, hf, hts⟩
        have := h2 files hfmem f hf; omega
    · rintro ((h1 | h1) | h2)
      · left; left; omega
      · left; right; omega
      · right; intro files hfmem f hf
        by_contra hcon
        exact h2 files hfmem ⟨f, hf, by omega⟩

/-- Claim C6: a compaction whose flushing list is non-empty (a flush) never
elides point tombstones, never elides range tombstones, and consequently
never allows sequence-number zeroing. -/
theorem flush_never_elides (c : ElisionCompaction) (hf : c.flushing ≠ []) :
    (∀ idx key, (elideTombstone c idx key).1 = false) ∧
    (∀ start stop, elideRangeTombstone c start stop = false) ∧
    allowZeroSeqNum c = false := by
  have hne : c.flushing.isEmpty = false := by
    simpa [List.isEmpty_iff] using hf
  refine ⟨fun idx key => ?_, fun start stop => ?_, ?_⟩
  · simp [elideTombstone, hne]
  · simp [elideRangeTombstone, hne]
  · simp [allowZeroSeqNum, elideRangeTombstone, hne]

/-- Witness for `flush_never_elides` at a concrete flush. -/
theorem flush_never_elides_witness :
    (elideTombstone ⟨[()], false, false, [], 0, 9⟩ 0 4).1 = false ∧
    elideRangeTombstone ⟨[()], false, false, [], 0, 9⟩ 2 5 = false ∧
    allowZeroSeqNum ⟨[()], false, false, [], 0, 9⟩ = false := by
  obtain ⟨h1, h2, h3⟩ := flush_never_elides ⟨[()], false, false, [], 0, 9⟩ (by decide)
  exact ⟨h1 0 4, h2 2 5, h3⟩

/-- Claim C7 counterexample: a Default compaction with exactly one input file
at the start level, an empty output level and zero grandparent overlap, but
with data in an intermediate (extra) input level, is not converted — the
conversion additionally requires `hasExtraLevelData` to be false, which the
claim omits.  The claim's reading converts it to a move. -/
theorem claimC7_ne_newCompactionKind_at_input :
    newCompactionKind .cDefault [⟨1, 100, 0, 10, 3, 7, true, false, false⟩] []
        [[⟨2, 50, 2, 8, 1, 2, true, false, false⟩]] 0 100 false false
      = .cDefault ∧
    claimC7NewCompactionKind .cDefault [⟨1, 100, 0, 10, 3, 7, true, false, false⟩] []
        0 100 false false
      = .cMove := by
  decide

/-- Claim C7, amended: a Default compaction with exactly one input file at
the start level, an empty output level, total grandparent overlap at most
`maxOverlapBytes`, **and no data in any intermediate input level**, is
converted to a Move compaction when the output level need not be on shared
storage, to a Copy compaction when it must migrate to shared storage and the
input file is not virtual, and stays Default when it must migrate but the
input is virtual; and a Move compaction's version edit deletes the file from
the start level and adds the very same file metadata to the output level,
producing no new files. -/
theorem newCompactionKind_move_copy_spec (meta : FileMeta)
    (outputFiles : List FileMeta) (extraLevels : List (List FileMeta))
    (grandparentsSize maxOverlapBytes startLevel outputLevel : Nat)
    (isRemote shouldCreateShared : Bool)
    (hout : outputFiles = []) (hex : hasExtraLevelData extraLevels = false)
    (hgp : grandparentsSize ≤ maxOverlapBytes) :
    newCompactionKind .cDefault [meta] outputFiles extraLevels
        grandparentsSize maxOverlapBytes isRemote shouldCreateShared
      = (if !isRemote && shouldCreateShared then
           (if meta.virtual then .cDefault else .cCopy)
         else .cMove) ∧
    runMoveCompaction false startLevel outputLevel meta
      = .ok (⟨[(startLevel, meta.fileNum)], [(outputLevel, meta)]⟩, []) := by
  constructor
  · simp only [newCompactionKind, hout, hex, hgp]
    cases hR : isRemote <;> cases hS : shouldCreateShared <;>
      cases hV : meta.virtual <;> simp [hV, hgp]
  · rfl

/-- Witness for `newCompactionKind_move_copy_spec` at a concrete input. -/
theorem newCompactionKind_move_copy_spec_witness :
    newCompactionKind .cDefault [⟨1, 100, 0, 10, 3, 7, true, false, false⟩] [] []
        50 200 false false
      = .cMove ∧
    runMoveCompaction false 4 5 ⟨1, 100, 0, 10, 3, 7, true, false, false⟩
      = .ok (⟨[(4, 1)], [(5, ⟨1, 100, 0, 10, 3, 7, true, false, false⟩)]⟩, []) := by
  have := newCompactionKind_move_copy_spec ⟨1, 100, 0, 10, 3, 7, true, false, false⟩
    [] [] 50 200 4 5 false false rfl rfl (by decide)
  simpa using this

/-- Claim C8 counterexample: with no excluded files but one unused virtual
backing, the claim's reading appends a synthetic version edit removing the
backing, while `writeCheckpointManifest` appends nothing — the source guards
the synthetic edit on `len(excludedFiles) > 0` only. -/
theorem claimC8_ne_writeCheckpointManifest_at_input :
    claimC8WriteCheckpointManifest [] 0 [] [7]
      ≠ writeCheckpointManifest [] 0 [] [7] := by
  decide

/-- The prefix copied by `writeCheckpointManifest` is a record-aligned prefix
of the source manifest. -/
theorem recordsUpTo_isPrefixOf (budget : Nat) (src : List MRecord) :
    ∃ rest, src = recordsUpTo budget src ++ rest := by
  induction src generalizing budget with
  | nil => exact ⟨[], rfl⟩
  | cons r rs ih =>
    by_cases hs : r.size ≤ budget
    · obtain ⟨rest, hrest⟩ := ih (budget - r.size)
      exact ⟨rest, by rw [recordsUpTo, if_pos hs, List.cons_append, ← hrest]⟩
    · exact ⟨r :: rs, by rw [recordsUpTo, if_neg hs, List.nil_append]⟩

/-- The records copied by `writeCheckpointManifest` fit within the captured
manifest size. -/
theorem recordsUpTo_size_le (budget : Nat) (src : List MRecord) :
    ((recordsUpTo budget src).map (fun r => r.size)).sum ≤ budget := by
  induction src generalizing budget with
  | nil => simp [recordsUpTo]
  | cons r rs ih =>
    by_cases hs : r.size ≤ budget
    · rw [recordsUpTo, if_pos hs]
      have := ih (budget - r.size)
      simp only [List.map_cons, List.sum_cons]
      omega
    · rw [recordsUpTo, if_neg hs]; simp

/-- Claim C8, amended: the checkpoint's manifest is the record-granularity
prefix of the source manifest fitting in the manifest size captured under the
manifest lock, followed by one synthetic version edit that deletes the files
excluded by `restrictToSpans` and removes the virtual backings not required
by any included virtual file — but the synthetic edit is appended only when
the excluded-file set is non-empty; when no files are excluded, no edit is
appended even if there are unused virtual backings to remove. -/
theorem writeCheckpointManifest_spec (src : List MRecord) (manifestSize : Nat)
    (excludedFiles : List (Nat × Nat)) (removeBackingTables : List Nat) :
    (∃ rest, src = recordsUpTo manifestSize src ++ rest) ∧
    ((recordsUpTo manifestSize src).map (fun r => r.size)).sum ≤ manifestSize ∧
    (excludedFiles ≠ [] →
      writeCheckpointManifest src manifestSize excludedFiles removeBackingTables
        = (recordsUpTo manifestSize src).map .copied
          ++ [.syntheticEdit excludedFiles removeBackingTables]) ∧
    (excludedFiles = [] →
      writeCheckpointManifest src manifestSize excludedFiles removeBackingTables
        = (recordsUpTo manifestSize src).map .copied) := by
  refine ⟨recordsUpTo_isPrefixOf manifestSize src,
    recordsUpTo_size_le manifestSize src, ?_, ?_⟩
  · intro hne
    rw [writeCheckpointManifest, if_neg (by simpa [List.isEmpty_iff] using hne)]
  · intro hnil
    rw [writeCheckpointManifest, if_pos (by simp [hnil]), List.append_nil]

/-- Claim C9: when `DB.clearCompactingState` succeeds, every input file of a
rolled-back compaction returns to `NotCompacting`; on success, input files of
a move compaction return to `NotCompacting` while input files of every other
compaction kind become `Compacted`; and the intra-L0 marker is cleared on
every input file. -/
theorem clearCompactingState_spec (kind : CompactionKind) (rollback : Bool)
    (inputs : List (List CFile))
    (hc : ∀ files ∈ inputs, ∀ f ∈ files, f.compactionState = .compacting) :
    clearCompactingState kind rollback inputs =
      .ok (inputs.map fun files => files.map fun _ =>
        ⟨expectedClearedState kind rollback, false⟩) := by
  have hfile : ∀ f : CFile, f.compactionState = .compacting →
      clearFileState kind rollback f
        = .ok ⟨expectedClearedState kind rollback, false⟩ := by
    intro f hf
    rw [clearFileState, if_neg (by simp [hf])]
    have hstate : (if !rollback then
        (if kind != CompactionKind.cMove then CompactionState.compacted
         else CompactionState.notCompacting)
        else CompactionState.notCompacting) = expectedClearedState kind rollback := by
      cases rollback <;> cases hkm : kind == CompactionKind.cMove <;>
        simp_all [expectedClearedState, bne]
    rw [hstate]
  have hlevel : ∀ files : List CFile,
      (∀ f ∈ files, f.compactionState = .compacting) →
      clearFilesState kind rollback files
        = .ok (files.map fun _ => ⟨expectedClearedState kind rollback, false⟩) := by
    intro files hfs
    induction files with
    | nil => rfl
    | cons f fs ih =>
      rw [clearFilesState]
      rw [hfile f (hfs f (by simp))]
      rw [ih (fun g hg => hfs g (by simp [hg]))]
      rfl
  induction inputs with
  | nil => rfl
  | cons files rest ih =>
    rw [clearCompactingState]
    rw [hlevel files (hc files (by simp))]
    rw [ih (fun fs hfs => hc fs (by simp [hfs]))]
    rfl

/-- Witness for `clearCompactingState_spec` on a concrete move compaction. -/
theorem clearCompactingState_spec_witness :
    clearCompactingState .cMove false [[⟨.compacting, true⟩], [⟨.compacting, false⟩]]
      = .ok [[⟨.notCompacting, false⟩], [⟨.notCompacting, false⟩]] := by
  have := clearCompactingState_spec .cMove false
    [[⟨.compacting, true⟩], [⟨.compacting, false⟩]] (by decide)
  simpa [expectedClearedState] using this

/-- Claim C10: if the checkpoint destination directory already exists when
`Checkpoint` is called, the call returns the path error wrapping the exist
error having performed only the `Stat` probe — nothing is created, modified
or removed — and the `RemoveAll` cleanup can only ever run on executions in
which the existence check found no destination directory. -/
theorem checkpoint_existing_dest_spec (sr : StatResult)
    (flushWAL walOk mkdirOk restOk : Bool) (h : sr = .found) :
    checkpointRun sr flushWAL walOk mkdirOk restOk
      = (some .destExists, [.statDest]) ∧
    (∀ (sr' : StatResult) (fw wo mo ro : Bool),
      CkAction.removeAllDest ∈ (checkpointRun sr' fw wo mo ro).2 →
        sr' = .notFound) := by
  subst h
  refine ⟨rfl, ?_⟩
  intro sr' fw wo mo ro hmem
  cases sr' with
  | found => simp [checkpointRun] at hmem
  | statError e => simp [checkpointRun] at hmem
  | notFound => rfl

/-- Witness for `checkpoint_existing_dest_spec` at concrete oracle values. -/
theorem checkpoint_existing_dest_spec_witness :
    checkpointRun .found true true true true = (some .destExists, [.statDest]) :=
  (checkpoint_existing_dest_spec .found true true true true rfl).1

/-- Claim C5 counterexample: with no point key written, a pending range
tombstone starting exactly at the split key and a pending range key starting
strictly below it, the claim's reading emits the range key, but
`finishOutput` emits nothing — the source's early return consults only the
first pending tombstone's start (compaction.go:2968-2976). -/
theorem claimC5_ne_finishOutputSpans_at_input :
    claimC5FinishOutputSpans false (some 5) [⟨5, 6⟩] [⟨3, 4⟩]
      ≠ finishOutputSpans false (some 5) [⟨5, 6⟩] [⟨3, 4⟩] := by
  decide

/-- Every span emitted by `spansUpTo` starts strictly below the split key and
ends no later than it. -/
theorem mem_spansUpTo (sk : Nat) (spans : List PendingSpan) :
    ∀ s ∈ spansUpTo (some sk) spans, s.start < sk ∧ s.stop ≤ sk := by
  intro s hs
  simp only [spansUpTo, List.mem_map, List.mem_filter, decide_eq_true_eq] at hs
  obtain ⟨t, ⟨_, hlt⟩, rfl⟩ := hs
  exact ⟨hlt, min_le_right _ _⟩

/-- The range-tombstone truncation check passes on any list of tombstones
ending no later than the split key. -/
theorem rangeDelTruncationCheck_ok (sk : Nat) (l : List PendingSpan)
    (h : ∀ s ∈ l, s.stop ≤ sk) :
    rangeDelTruncationCheck (some sk) l = .ok () := by
  unfold rangeDelTruncationCheck
  cases hm : (l.map (fun s => s.stop)).max? with
  | none => rfl
  | some m =>
    have hmem : m ∈ l.map (fun s => s.stop) :=
      List.max?_mem (fun _ _ => max_choice _ _) hm
    simp only [List.mem_map] at hmem
    obtain ⟨s, hs, rfl⟩ := hmem
    have hle : ¬ sk < s.stop := by have := h s hs; omega
    simp [hle]

/-- Claim C5, amended: `finishOutput(split_key)` emits nothing exactly when
the writer is absent and the first pending span's start — the first pending
range tombstone's start, or the first pending range key's start when no
tombstone is pending — equals the split key; otherwise it emits all pending
range tombstones and range keys starting strictly below the split key,
truncated to the split key (opening the writer for them), so every emitted
tombstone ends at or before the split key and the invariant-violation check
on the largest emitted range tombstone never errors; consequently an output
containing only spans always has a start key strictly below — in particular
distinct from — the split key used to finish it. -/
theorem finishOutputSpans_spec (twOpen : Bool) (sk : Nat)
    (tombstones rangeKeys : List PendingSpan) :
    (∀ s ∈ (finishOutputSpans twOpen (some sk) tombstones rangeKeys).1,
        s.start < sk ∧ s.stop ≤ sk) ∧
    (∀ s ∈ (finishOutputSpans twOpen (some sk) tombstones rangeKeys).2,
        s.start < sk) ∧
    rangeDelTruncationCheck (some sk)
        (finishOutputSpans twOpen (some sk) tombstones rangeKeys).1 = .ok () ∧
    (twOpen = false → firstPendingStart tombstones rangeKeys = some sk →
        finishOutputSpans twOpen (some sk) tombstones rangeKeys = ([], [])) ∧
    (twOpen = true →
        finishOutputSpans twOpen (some sk) tombstones rangeKeys
          = (spansUpTo (some sk) tombstones, spansUpTo (some sk) rangeKeys)) ∧
    (twOpen = false → firstPendingStart tombstones rangeKeys ≠ some sk →
        finishOutputSpans twOpen (some sk) tombstones rangeKeys
          = (spansUpTo (some sk) tombstones, spansUpTo (some sk) rangeKeys)) := by
  by_cases hguard : twOpen = false ∧ firstPendingStart tombstones rangeKeys = some sk
  · obtain ⟨htw, hfirst⟩ := hguard
    have hres : finishOutputSpans twOpen (some sk) tombstones rangeKeys = ([], []) := by
      rw [finishOutputSpans, if_pos (by simp [htw, hfirst])]
    refine ⟨?_, ?_, ?_, fun _ _ => hres, ?_, ?_⟩
    · rw [hres]; intro s hs; simp at hs
    · rw [hres]; intro s hs; simp at hs
    · rw [hres]; rfl
    · intro htw'; rw [htw'] at htw; cases htw
    · intro _ hfirst'; exact absurd hfirst hfirst'
  · have hres : finishOutputSpans twOpen (some sk) tombstones rangeKeys
        = (spansUpTo (some sk) tombstones, spansUpTo (some sk) rangeKeys) := by
      rw [finishOutputSpans, if_neg]
      simp only [Bool.and_eq_true, Bool.not_eq_true', beq_iff_eq, Option.isSome_some,
        and_true, true_and, not_and]
      intro htw hf
      exact hguard ⟨htw, by simpa using hf⟩
    refine ⟨?_, ?_, ?_, ?_, fun _ => hres, fun _ _ => hres⟩
    · rw [hres]; exact mem_spansUpTo sk tombstones
    · rw [hres]; intro s hs; exact (mem_spansUpTo sk rangeKeys s hs).1
    · rw [hres]
      exact rangeDelTruncationCheck_ok sk _ (fun s hs => (mem_spansUpTo sk tombstones s hs).2)
    · intro htw hfirst; exact absurd ⟨htw, hfirst⟩ hguard

/-- Two outputs are separated: either strictly, or the earlier one's largest
bound is an exclusive sentinel at or before the later one's smallest key. -/
def outputsSeparated (a b : OutputMeta) : Prop :=
  a.largest < b.smallest ∨ (a.largestExclusive = true ∧ a.largest ≤ b.smallest)

/-- `checkOutputBounds` succeeds exactly when the output's bounds lie within
the compaction's input bounds. -/
theorem checkOutputBounds_ok_iff (s l : Nat) (meta : OutputMeta) :
    checkOutputBounds (some s) (some l) meta = .ok ()
      ↔ s ≤ meta.smallest ∧ meta.largest ≤ l := by
  by_cases h1 : meta.smallest < s <;> by_cases h2 : l < meta.largest <;>
    simp [checkOutputBounds, h1, h2, Bind.bind, Except.bind, pure, Except.pure] <;>
    omega

/-- `errorOnUserKeyOverlap` succeeds exactly when the previous output's
largest bound is an exclusive sentinel or lies strictly below the new
output's smallest key. -/
theorem errorOnUserKeyOverlap_ok_iff (prev meta : OutputMeta) :
    errorOnUserKeyOverlap prev meta = .ok ()
      ↔ prev.largestExclusive = true ∨ prev.largest < meta.smallest := by
  cases he : prev.largestExclusive <;>
    by_cases hle : meta.smallest ≤ prev.largest <;>
    simp [errorOnUserKeyOverlap, he, hle] <;> omega

/-- A successful `finishOutputChecks` means both component checks passed. -/
theorem finishOutputChecks_ok (cS cL : Option Nat) (prev : Option OutputMeta)
    (meta : OutputMeta)
    (h : finishOutputChecks cS cL prev meta = .ok ()) :
    checkOutputBounds cS cL meta = .ok () ∧
    (∀ p, prev = some p → errorOnUserKeyOverlap p meta = .ok ()) := by
  cases hb : checkOutputBounds cS cL meta with
  | error e =>
    unfold finishOutputChecks at h
    simp [hb, Bind.bind, Except.bind] at h
  | ok u =>
    cases u
    refine ⟨rfl, ?_⟩
    intro p hp
    subst hp
    unfold finishOutputChecks at h
    simpa [hb, Bind.bind, Except.bind] using h

/-- A failing component makes `finishOutputChecks` fail. -/
theorem finishOutputChecks_error (cS cL : Option Nat) (prev : Option OutputMeta)
    (meta : OutputMeta)
    (h : checkOutputBounds cS cL meta ≠ .ok ()
      ∨ ∃ p, prev = some p ∧ errorOnUserKeyOverlap p meta ≠ .ok ()) :
    finishOutputChecks cS cL prev meta ≠ .ok () := by
  intro hok
  obtain ⟨hb, hover⟩ := finishOutputChecks_ok cS cL prev meta hok
  rcases h with h | ⟨p, hp, h⟩
  · exact h hb
  · exact h (hover p hp)

/-- A successful `checkAllOutputs` run checked the bounds of every output. -/
theorem checkAllOutputs_ok_bounds (cS cL : Option Nat) :
    ∀ (prev : Option OutputMeta) (l : List OutputMeta),
      checkAllOutputs cS cL prev l = .ok () →
      ∀ o ∈ l, checkOutputBounds cS cL o = .ok () := by
  intro prev l
  induction l generalizing prev with
  | nil => intro _ o ho; simp at ho
  | cons a t ih =>
    intro h o ho
    rw [checkAllOutputs] at h
    cases hf : finishOutputChecks cS cL prev a with
    | error e => simp [hf, Bind.bind, Except.bind] at h
    | ok u =>
      cases u
      have ht : checkAllOutputs cS cL (some a) t = .ok () := by
        simpa [hf, Bind.bind, Except.bind] using h
      rcases List.mem_cons.mp ho with rfl | ho'
      · exact (finishOutputChecks_ok cS cL prev o hf).1
      · exact ih (some a) ht o ho'

/-- A successful `checkAllOutputs` run ran the user-key-overlap check between
every pair of consecutive outputs. -/
theorem checkAllOutputs_ok_chain (cS cL : Option Nat) :
    ∀ (a : OutputMeta) (l : List OutputMeta),
      checkAllOutputs cS cL (some a) l = .ok () →
      List.Chain (fun x y => errorOnUserKeyOverlap x y = .ok ()) a l := by
  intro a l
  induction l generalizing a with
  | nil => intro _; exact List.Chain.nil
  | cons b t ih =>
    intro h
    rw [checkAllOutputs] at h
    cases hf : finishOutputChecks cS cL (some a) b with
    | error e => simp [hf, Bind.bind, Except.bind] at h
    | ok u =>
      cases u
      have ht : checkAllOutputs cS cL (some b) t = .ok () := by
        simpa [hf, Bind.bind, Except.bind] using h
      exact List.Chain.cons
        ((finishOutputChecks_ok cS cL (some a) b hf).2 a rfl) (ih b ht)

/-- Separation is transitive through an output with well-formed bounds. -/
theorem outputsSeparated_trans (a b c : OutputMeta)
    (hb : b.smallest ≤ b.largest)
    (hab : outputsSeparated a b) (hbc : outputsSeparated b c) :
    outputsSeparated a c := by
  rcases hab with hab | ⟨hexa, hab⟩ <;> rcases hbc with hbc | ⟨hexb, hbc⟩
  · exact Or.inl (by omega)
  · exact Or.inl (by omega)
  · exact Or.inr ⟨hexa, by omega⟩
  · exact Or.inr ⟨hexa, by omega⟩

/-- A chain of separated outputs with well-formed bounds is pairwise
separated. -/
theorem chain_outputsSeparated_pairwise :
    ∀ (l : List OutputMeta), (∀ o ∈ l, o.smallest ≤ o.largest) →
      List.Chain' outputsSeparated l → List.Pairwise outputsSeparated l := by
  have head : ∀ (a : OutputMeta) (t : List OutputMeta),
      (∀ o ∈ t, o.smallest ≤ o.largest) →
      List.Chain outputsSeparated a t → ∀ b ∈ t, outputsSeparated a b := by
    intro a t
    induction t generalizing a with
    | nil => intro _ _ b hb; simp at hb
    | cons c t' ih =>
      intro hv hch b hb
      rcases List.chain_cons.mp hch with ⟨hac, hct⟩
      rcases List.mem_cons.mp hb with rfl | hb'
      · exact hac
      · exact outputsSeparated_trans a c b (hv c (by simp))
          hac (ih c (fun o ho => hv o (by simp [ho])) hct b hb')
  intro l
  induction l with
  | nil => intro _ _; exact List.Pairwise.nil
  | cons a t ih =>
    intro hv hch
    have hch' : List.Chain outputsSeparated a t := hch
    refine List.pairwise_cons.mpr ⟨?_, ?_⟩
    · exact head a t (fun o ho => hv o (by simp [ho])) hch'
    · exact ih (fun o ho => hv o (by simp [ho])) (List.Chain'.tail hch)

/-- Consecutive outputs that passed the overlap check and were emitted in
non-decreasing key order are separated. -/
theorem chain_outputsSeparated_of_checks :
    ∀ (a : OutputMeta) (t : List OutputMeta),
      List.Chain (fun x y => errorOnUserKeyOverlap x y = .ok ()) a t →
      List.Chain (fun x y : OutputMeta => x.largest ≤ y.smallest) a t →
      List.Chain outputsSeparated a t := by
  intro a t
  induction t generalizing a with
  | nil => intro _ _; exact List.Chain.nil
  | cons b t' ih =>
    intro hchain hord
    rcases List.chain_cons.mp hchain with ⟨hab, hbt⟩
    rcases List.chain_cons.mp hord with ⟨oab, obt⟩
    refine List.chain_cons.mpr ⟨?_, ih b hbt obt⟩
    rcases (errorOnUserKeyOverlap_ok_iff a b).mp hab with hex | hlt
    · exact Or.inr ⟨hex, oab⟩
    · exact Or.inl hlt

/-- Separated outputs share no user key. -/
theorem outputsSeparated_disjoint (a b : OutputMeta)
    (h : outputsSeparated a b) :
    ∀ u, ¬(outputContains a u ∧ outputContains b u) := by
  rintro u ⟨⟨has, hau⟩, ⟨hbs, hbu⟩⟩
  rcases h with h | ⟨hex, h⟩
  · rcases hau with hau | ⟨rfl, _⟩ <;> omega
  · rcases hau with hau | ⟨rfl, hexf⟩
    · omega
    · rw [hex] at hexf; cases hexf

/-- Claim C4: for every compaction whose outputs all pass the `finishOutput`
sanity checks — with each output's bounds well-formed (as `meta.Validate`
enforces) and outputs emitted in non-decreasing key order (as the merged
compaction iterator guarantees) — every output's user-key bounds lie within
the compaction's input bounds `[cS, cL]` and no user key appears in more than
one output; and whenever an output's bounds would escape the compaction
bounds, or a non-exclusive previous largest key would reach the next output's
smallest key, the checks return an error instead. -/
theorem finishOutput_bounds_and_disjointness (cS cL : Nat)
    (outputs : List OutputMeta)
    (hvalid : ∀ o ∈ outputs, o.smallest ≤ o.largest)
    (hord : List.Chain' (fun a b => a.largest ≤ b.smallest) outputs)
    (hchecks : checkAllOutputs (some cS) (some cL) none outputs = .ok ()) :
    (∀ o ∈ outputs, cS ≤ o.smallest ∧ o.smallest ≤ o.largest ∧ o.largest ≤ cL) ∧
    List.Pairwise
      (fun a b => ∀ u, ¬(outputContains a u ∧ outputContains b u)) outputs ∧
    (∀ (prev : Option OutputMeta) (o : OutputMeta),
      o.smallest < cS ∨ cL < o.largest →
      finishOutputChecks (some cS) (some cL) prev o ≠ .ok ()) ∧
    (∀ p o : OutputMeta, p.largestExclusive = false → o.smallest ≤ p.largest →
      finishOutputChecks (some cS) (some cL) (some p) o ≠ .ok ()) := by
  refine ⟨?_, ?_, ?_, ?_⟩
  · intro o ho
    have hb := checkAllOutputs_ok_bounds (some cS) (some cL) none outputs hchecks o ho
    have := (checkOutputBounds_ok_iff cS cL o).mp hb
    exact ⟨this.1, hvalid o ho, this.2⟩
  · have hsep : List.Pairwise outputsSeparated outputs := by
      apply chain_outputsSeparated_pairwise outputs hvalid
      cases outputs with
      | nil => exact List.chain'_nil
      | cons a t =>
        rw [checkAllOutputs] at hchecks
        cases hf : finishOutputChecks (some cS) (some cL) none a with
        | error e => simp [hf, Bind.bind, Except.bind] at hchecks
        | ok u =>
          cases u
          have ht : checkAllOutputs (some cS) (some cL) (some a) t = .ok () := by
            simpa [hf, Bind.bind, Except.bind] using hchecks
          have hchain := checkAllOutputs_ok_chain (some cS) (some cL) a t ht
          have hord' : List.Chain (fun x y : OutputMeta => x.largest ≤ y.smallest) a t := hord
          exact chain_outputsSeparated_of_checks a t hchain hord'
    exact hsep.imp (fun {a b} hab => outputsSeparated_disjoint a b hab)
  · intro prev o hviol
    apply finishOutputChecks_error
    left
    rw [Ne, checkOutputBounds_ok_iff]
    omega
  · intro p o hex hle
    apply finishOutputChecks_error
    right
    refine ⟨p, rfl, ?_⟩
    rw [Ne, errorOnUserKeyOverlap_ok_iff, hex]
    push_neg
    exact ⟨by simp, by omega⟩

/-- Witness for `finishOutput_bounds_and_disjointness` on a concrete pair of
outputs. -/
theorem finishOutput_bounds_and_disjointness_witness :
    (∀ o ∈ [(⟨1, 3, false⟩ : OutputMeta), ⟨4, 9, true⟩],
      0 ≤ o.smallest ∧ o.smallest ≤ o.largest ∧ o.largest ≤ 10) ∧
    List.Pairwise
      (fun a b => ∀ u, ¬(outputContains a u ∧ outputContains b u))
      [(⟨1, 3, false⟩ : OutputMeta), ⟨4, 9, true⟩] := by
  have h := finishOutput_bounds_and_disjointness 0 10
    [⟨1, 3, false⟩, ⟨4, 9, true⟩] (by decide)
    (List.Chain.cons (by decide) List.Chain.nil) rfl
  exact ⟨h.1, h.2.1⟩

/-- `transformGo` on an empty key list yields nothing, whatever the
snapshots. -/
theorem transformGo_nil_keys (elide : Bool) :
    ∀ D : List Nat, transformGo elide D [] = [] := by
  intro D
  induction D with
  | nil => rfl
  | cons s rest ih => simp [transformGo, ih]

/-- The element named by `getLast?` is a member of the list. -/
theorem mem_of_getLast?_eq {α : Type} {l : List α} {a : α}
    (h : l.getLast? = some a) : a ∈ l := by
  have hx : a ∈ l.getLast? := by simp [h]
  obtain ⟨hne, heq⟩ := List.mem_getLast?_eq_getLast hx
  rw [heq]
  exact List.getLast_mem hne

/-- On a key list sorted by non-increasing seqnum, the `takeWhile` of the
transform's partition loop is a `filter`. -/
theorem takeWhile_notVisible_eq_filter (m : Nat) :
    ∀ keys : List RKey, List.Pairwise (fun a b : RKey => b.seq ≤ a.seq) keys →
      keys.takeWhile (fun k => !visible k.seq m)
        = keys.filter (fun k => !visible k.seq m) := by
  intro keys h
  induction keys with
  | nil => rfl
  | cons k ks ih =>
    rcases List.pairwise_cons.mp h with ⟨hk, htail⟩
    by_cases hv : k.seq < m
    · have hvf : (!visible k.seq m) = false := by simp [visible]; omega
      rw [List.takeWhile_cons, hvf, List.filter_cons, hvf]
      simp only [Bool.false_eq_true, if_false]
      symm
      apply List.filter_eq_nil_iff.mpr
      intro b hb
      have := hk b hb
      simp [visible]
      omega
    · have hvt : (!visible k.seq m) = true := by simp [visible]; omega
      rw [List.takeWhile_cons, hvt, List.filter_cons, hvt]
      simp only [if_true]
      rw [ih htail]

/-- On a key list sorted by non-increasing seqnum, the `dropWhile` of the
transform's partition loop is the complementary `filter`. -/
theorem dropWhile_notVisible_eq_filter (m : Nat) :
    ∀ keys : List RKey, List.Pairwise (fun a b : RKey => b.seq ≤ a.seq) keys →
      keys.dropWhile (fun k => !visible k.seq m)
        = keys.filter (fun k => visible k.seq m) := by
  intro keys h
  induction keys with
  | nil => rfl
  | cons k ks ih =>
    rcases List.pairwise_cons.mp h with ⟨hk, htail⟩
    by_cases hv : k.seq < m
    · have hvf : (!visible k.seq m) = false := by simp [visible]; omega
      have hvt : visible k.seq m = true := by simp [visible]; omega
      rw [List.dropWhile_cons, hvf, List.filter_cons, hvt]
      simp only [Bool.false_eq_true, if_false, if_true]
      have : ks.filter (fun k => visible k.seq m) = ks := by
        apply List.filter_eq_self.mpr
        intro b hb
        have := hk b hb
        simp [visible]
        omega
      rw [this]
    · have hvt : (!visible k.seq m) = true := by simp [visible]; omega
      have hvf : visible k.seq m = false := by simp [visible]; omega
      rw [List.dropWhile_cons, hvt, List.filter_cons, hvf]
      simp only [Bool.false_eq_true, if_false, if_true]
      exact ih htail

/-- A sequence number's stripe is a snapshot above it. -/
theorem stripeOf_mem {snaps : List Nat} {seq s : Nat}
    (h : stripeOf snaps seq = some s) : s ∈ snaps ∧ seq < s := by
  unfold stripeOf at h
  have hm : s ∈ snaps.filter (fun x => decide (seq < x)) :=
    List.mem_of_mem_head? (by simp [h])
  rcases List.mem_filter.mp hm with ⟨h1, h2⟩
  exact ⟨h1, by simpa using h2⟩

/-- Appending a snapshot above all others: sequence numbers below it keep
their stripe (defaulting to the new snapshot), ones at or above move to the
stripe including plus infinity. -/
theorem stripeOf_append_max (init : List Nat) (m seq : Nat)
    (hlt : ∀ s ∈ init, s < m) :
    stripeOf (init ++ [m]) seq
      = if seq < m then some ((stripeOf init seq).getD m) else none := by
  unfold stripeOf
  rw [List.filter_append]
  by_cases hm : seq < m
  · rw [if_pos hm]
    have h1 : List.filter (fun s => decide (seq < s)) [m] = [m] := by simp [hm]
    rw [h1, List.head?_append]
    cases hh : (List.filter (fun s => decide (seq < s)) init).head? with
    | none => simp [Option.or]
    | some s => simp [Option.or]
  · rw [if_neg hm]
    have h1 : List.filter (fun s => decide (seq < s)) [m] = [] := by
      simp
      omega
    have h2 : List.filter (fun s => decide (seq < s)) init = [] := by
      apply List.filter_eq_nil_iff.mpr
      intro a ha
      have := hlt a ha
      simp
      omega
    rw [h1, h2]
    rfl

/-- The stripe test against `none` after appending the maximal snapshot is
the partition-loop test of the transform. -/
theorem stripeOf_beq_none (init : List Nat) (m : Nat)
    (hlt : ∀ s ∈ init, s < m) (k : RKey) :
    (stripeOf (init ++ [m]) k.seq == none) = (!visible k.seq m) := by
  rw [stripeOf_append_max init m k.seq hlt]
  by_cases hv : k.seq < m
  · rw [if_pos hv]
    have : visible k.seq m = true := by simp [visible]; omega
    simp [this]
  · rw [if_neg hv]
    have : visible k.seq m = false := by simp [visible]; omega
    simp [this]

/-- The stripe test against the appended maximal snapshot `m` corresponds to
the sub-problem's test against the stripe including plus infinity. -/
theorem stripeOf_beq_some_max (init : List Nat) (m : Nat)
    (hlt : ∀ s ∈ init, s < m) (k : RKey) :
    (stripeOf (init ++ [m]) k.seq == some m)
      = ((stripeOf init k.seq == none) && visible k.seq m) := by
  rw [stripeOf_append_max init m k.seq hlt]
  by_cases hv : k.seq < m
  · rw [if_pos hv]
    have hvt : visible k.seq m = true := by simp [visible]; omega
    rw [hvt, Bool.and_true]
    cases hio : stripeOf init k.seq with
    | none => simp
    | some s =>
      have hsm : s ≠ m := by
        have := (stripeOf_mem hio).1
        have := hlt s this
        omega
      simp [hsm]
  · rw [if_neg hv]
    have hvf : visible k.seq m = false := by simp [visible]; omega
    simp [hvf]

/-- The stripe test against a snapshot below the appended maximal one is
unchanged on visible keys and false on the rest. -/
theorem stripeOf_beq_some_small (init : List Nat) (m s : Nat)
    (hlt : ∀ x ∈ init, x < m) (hs : s < m) (k : RKey) :
    (stripeOf (init ++ [m]) k.seq == some s)
      = ((stripeOf init k.seq == some s) && visible k.seq m) := by
  rw [stripeOf_append_max init m k.seq hlt]
  by_cases hv : k.seq < m
  · rw [if_pos hv]
    have hvt : visible k.seq m = true := by simp [visible]; omega
    rw [hvt, Bool.and_true]
    cases hio : stripeOf init k.seq with
    | none =>
      have hms : m ≠ s := by omega
      simp [hms]
    | some s' => simp
  · rw [if_neg hv]
    have hvf : visible k.seq m = false := by simp [visible]; omega
    simp [hvf]

/-- A non-empty `dropWhile` ends where the whole list ends. -/
theorem getLast?_dropWhile_of_ne_nil {α : Type} (p : α → Bool) (l : List α)
    (h : l.dropWhile p ≠ []) : (l.dropWhile p).getLast? = l.getLast? := by
  conv_rhs => rw [← List.takeWhile_append_dropWhile p l]
  rw [List.getLast?_append_of_ne_nil _ h]

/-- On a sorted key list, either there are no keys, or the last (oldest) key
sits at or above the snapshot `m` and no key is visible to `m`, or the last
key is visible to `m` and also closes the visible-filtered list. -/
theorem lastKey_cases (m : Nat) (keys : List RKey)
    (hk : List.Pairwise (fun a b : RKey => b.seq ≤ a.seq) keys) :
    keys = [] ∨
    (∃ lk, keys.getLast? = some lk
      ∧ keys.filter (fun k => visible k.seq m) = [] ∧ ¬ lk.seq < m) ∨
    (∃ lk, keys.getLast? = some lk
      ∧ (keys.filter (fun k => visible k.seq m)).getLast? = some lk
      ∧ lk.seq < m) := by
  by_cases hke : keys = []
  · exact Or.inl hke
  · obtain ⟨lk, hgl⟩ : ∃ lk, keys.getLast? = some lk :=
      ⟨keys.getLast hke, List.getLast?_eq_getLast_of_ne_nil hke⟩
    by_cases hfe : keys.filter (fun k => visible k.seq m) = []
    · refine Or.inr (Or.inl ⟨lk, hgl, hfe, ?_⟩)
      have hmem : lk ∈ keys := mem_of_getLast?_eq hgl
      have := List.filter_eq_nil_iff.mp hfe lk hmem
      simp [visible] at this
      omega
    · refine Or.inr (Or.inr ⟨lk, hgl, ?_, ?_⟩)
      · rw [← dropWhile_notVisible_eq_filter m keys hk]
        rw [← dropWhile_notVisible_eq_filter m keys hk] at hfe
        rw [getLast?_dropWhile_of_ne_nil _ _ hfe]
        exact hgl
      · have hglf : (keys.filter (fun k => visible k.seq m)).getLast? = some lk := by
          rw [← dropWhile_notVisible_eq_filter m keys hk]
          rw [← dropWhile_notVisible_eq_filter m keys hk] at hfe
          rw [getLast?_dropWhile_of_ne_nil _ _ hfe]
          exact hgl
        have hmem : lk ∈ keys.filter (fun k => visible k.seq m) :=
          mem_of_getLast?_eq hglf
        have := (List.mem_filter.mp hmem).2
        simp [visible] at this
        omega

/-- The head block of the transform's partition step is the stripe including
plus infinity of the by-stripe description. -/
theorem headBlock_eq (elide : Bool) (init : List Nat) (m : Nat)
    (keys : List RKey) (hlt : ∀ s ∈ init, s < m)
    (hk : List.Pairwise (fun a b : RKey => b.seq ≤ a.seq) keys) :
    (if (keys.takeWhile (fun k => !visible k.seq m)).isEmpty then []
     else if (keys.dropWhile (fun k => !visible k.seq m)).isEmpty then
       elideInLastStripe elide
         (coalesce (keys.takeWhile (fun k => !visible k.seq m)))
     else coalesce (keys.takeWhile (fun k => !visible k.seq m)))
    = stripeProcess elide
        (keys.getLast?.map (fun k => stripeOf (init ++ [m]) k.seq))
        (init ++ [m]) keys none := by
  rw [takeWhile_notVisible_eq_filter m keys hk,
    dropWhile_notVisible_eq_filter m keys hk]
  unfold stripeProcess
  have hpart : keys.filter (fun k => stripeOf (init ++ [m]) k.seq == none)
      = keys.filter (fun k => !visible k.seq m) :=
    List.filter_congr (fun k _ => stripeOf_beq_none init m hlt k)
  rw [hpart]
  rcases lastKey_cases m keys hk with hke | ⟨lk, hgl, hfe, hnv⟩ | ⟨lk, hgl, hglf, hv⟩
  · subst hke; rfl
  · have hnone : stripeOf (init ++ [m]) lk.seq = none := by
      rw [stripeOf_append_max init m lk.seq hlt, if_neg hnv]
    rw [hgl, hfe]
    simp [hnone]
  · have hsome : stripeOf (init ++ [m]) lk.seq
        = some ((stripeOf init lk.seq).getD m) := by
      rw [stripeOf_append_max init m lk.seq hlt, if_pos hv]
    have hkfne : keys.filter (fun k => visible k.seq m) ≠ [] := by
      intro h0
      rw [h0] at hglf
      cases hglf
    rw [hgl]
    simp [hsome, hkfne]

/-- The stripe of the appended maximal snapshot in the big problem is the
stripe including plus infinity of the sub-problem on the visible keys. -/
theorem stripeProcess_max_eq (elide : Bool) (init : List Nat) (m : Nat)
    (keys : List RKey) (hlt : ∀ s ∈ init, s < m)
    (hk : List.Pairwise (fun a b : RKey => b.seq ≤ a.seq) keys) :
    stripeProcess elide
        (keys.getLast?.map (fun k => stripeOf (init ++ [m]) k.seq))
        (init ++ [m]) keys (some m)
      = stripeProcess elide
          ((keys.filter (fun k => visible k.seq m)).getLast?.map
            (fun k => stripeOf init k.seq))
          init (keys.filter (fun k => visible k.seq m)) none := by
  unfold stripeProcess
  have hpart : (keys.filter (fun k => visible k.seq m)).filter
        (fun k => stripeOf init k.seq == none)
      = keys.filter (fun k => stripeOf (init ++ [m]) k.seq == some m) := by
    rw [List.filter_filter]
    exact (List.filter_congr (fun k _ => stripeOf_beq_some_max init m hlt k)).symm
  rw [hpart]
  have hcond : (keys.getLast?.map (fun k => stripeOf (init ++ [m]) k.seq)
        == some (some m))
      = ((keys.filter (fun k => visible k.seq m)).getLast?.map
          (fun k => stripeOf init k.seq) == some none) := by
    rcases lastKey_cases m keys hk with hke | ⟨lk, hgl, hfe, hnv⟩ | ⟨lk, hgl, hglf, hv⟩
    · subst hke; rfl
    · have hnone : stripeOf (init ++ [m]) lk.seq = none := by
        rw [stripeOf_append_max init m lk.seq hlt, if_neg hnv]
      rw [hgl, hfe]
      simp [hnone]
    · have hsome : stripeOf (init ++ [m]) lk.seq
          = some ((stripeOf init lk.seq).getD m) := by
        rw [stripeOf_append_max init m lk.seq hlt, if_pos hv]
      rw [hgl, hglf]
      simp only [Option.map_some']
      rw [hsome]
      cases hio : stripeOf init lk.seq with
      | none => simp
      | some s' =>
        have hsm : s' ≠ m := by
          have := hlt s' (stripeOf_mem hio).1
          omega
        simp [hsm]
  rw [hcond]

/-- Stripes strictly below the appended maximal snapshot process identically
in the big problem and the sub-problem on the visible keys. -/
theorem stripeProcess_small_eq (elide : Bool) (init : List Nat) (m s : Nat)
    (keys : List RKey) (hlt : ∀ x ∈ init, x < m) (hs : s < m)
    (hk : List.Pairwise (fun a b : RKey => b.seq ≤ a.seq) keys) :
    stripeProcess elide
        (keys.getLast?.map (fun k => stripeOf (init ++ [m]) k.seq))
        (init ++ [m]) keys (some s)
      = stripeProcess elide
          ((keys.filter (fun k => visible k.seq m)).getLast?.map
            (fun k => stripeOf init k.seq))
          init (keys.filter (fun k => visible k.seq m)) (some s) := by
  unfold stripeProcess
  have hpart : (keys.filter (fun k => visible k.seq m)).filter
        (fun k => stripeOf init k.seq == some s)
      = keys.filter (fun k => stripeOf (init ++ [m]) k.seq == some s) := by
    rw [List.filter_filter]
    exact (List.filter_congr
      (fun k _ => stripeOf_beq_some_small init m s hlt hs k)).symm
  rw [hpart]
  have hcond : (keys.getLast?.map (fun k => stripeOf (init ++ [m]) k.seq)
        == some (some s))
      = ((keys.filter (fun k => visible k.seq m)).getLast?.map
          (fun k => stripeOf init k.seq) == some (some s)) := by
    rcases lastKey_cases m keys hk with hke | ⟨lk, hgl, hfe, hnv⟩ | ⟨lk, hgl, hglf, hv⟩
    · subst hke; rfl
    · have hnone : stripeOf (init ++ [m]) lk.seq = none := by
        rw [stripeOf_append_max init m lk.seq hlt, if_neg hnv]
      rw [hgl, hfe]
      simp [hnone]
    · have hsome : stripeOf (init ++ [m]) lk.seq
          = some ((stripeOf init lk.seq).getD m) := by
        rw [stripeOf_append_max init m lk.seq hlt, if_pos hv]
      rw [hgl, hglf]
      simp only [Option.map_some']
      rw [hsome]
      cases hio : stripeOf init lk.seq with
      | none =>
        have hms : m ≠ s := by omega
        simp [hms]
      | some s' => simp
  rw [hcond]

/-- The partition loop of the transform, over an ascending snapshot list and
a key list sorted by non-increasing seqnum, is the by-stripe description
whose elision stripe is the stripe of the span's oldest key. -/
theorem transformGo_eq_flatMap (elide : Bool) :
    ∀ (snaps : List Nat) (keys : List RKey),
      List.Pairwise (· < ·) snaps →
      List.Pairwise (fun a b : RKey => b.seq ≤ a.seq) keys →
      transformGo elide snaps.reverse keys
        = (stripeIdsNewestFirst snaps).flatMap
            (stripeProcess elide
              (keys.getLast?.map (fun k => stripeOf snaps k.seq)) snaps keys) := by
  intro snaps
  induction snaps using List.reverseRecOn with
  | nil =>
    intro keys _ hk
    cases keys with
    | nil => rfl
    | cons k ks =>
      have hfilter : (k :: ks).filter (fun x => stripeOf [] x.seq == none)
          = k :: ks :=
        List.filter_eq_self.mpr (fun a _ => rfl)
      obtain ⟨lk, hlk⟩ : ∃ lk, (k :: ks).getLast? = some lk :=
        ⟨(k :: ks).getLast (by simp),
          List.getLast?_eq_getLast_of_ne_nil (by simp)⟩
      rw [show stripeIdsNewestFirst ([] : List Nat) = [none] from rfl,
        List.flatMap_cons, List.flatMap_nil, List.append_nil]
      unfold stripeProcess
      rw [hfilter, hlk]
      simp only [Option.map_some']
      simp [transformGo, stripeOf]
  | append_singleton init m ih =>
    intro keys hs hk
    rcases List.pairwise_append.mp hs with ⟨hsInit, -, hcross⟩
    have hlt : ∀ s ∈ init, s < m := fun s hsm => hcross s hsm m (by simp)
    have hrev : (init ++ [m]).reverse = m :: init.reverse := by
      rw [List.reverse_append]
      rfl
    rw [hrev, transformGo]
    have hk' : List.Pairwise (fun a b : RKey => b.seq ≤ a.seq)
        (keys.dropWhile (fun k => !visible k.seq m)) := by
      rw [dropWhile_notVisible_eq_filter m keys hk]
      exact hk.filter _
    rw [ih (keys.dropWhile (fun k => !visible k.seq m)) hsInit hk']
    rw [headBlock_eq elide init m keys hlt hk]
    rw [dropWhile_notVisible_eq_filter m keys hk]
    rw [show stripeIdsNewestFirst (init ++ [m])
        = none :: some m :: (init.reverse.map some) from by
      unfold stripeIdsNewestFirst
      rw [hrev]
      rfl]
    rw [show stripeIdsNewestFirst init = none :: (init.reverse.map some) from rfl]
    rw [List.flatMap_cons, List.flatMap_cons, List.flatMap_cons]
    rw [stripeProcess_max_eq elide init m keys hlt hk]
    have hrest : (init.reverse.map some).flatMap
        (stripeProcess elide
          ((keys.filter (fun k => visible k.seq m)).getLast?.map
            (fun k => stripeOf init k.seq))
          init (keys.filter (fun k => visible k.seq m)))
        = (init.reverse.map some).flatMap
            (stripeProcess elide
              (keys.getLast?.map (fun k => stripeOf (init ++ [m]) k.seq))
              (init ++ [m]) keys) := by
      apply List.flatMap_congr
      intro t ht
      rcases List.mem_map.mp ht with ⟨s, hsmem, rfl⟩
      have hsinit : s ∈ init := List.mem_reverse.mp hsmem
      exact (stripeProcess_small_eq elide init m s keys hlt (hlt s hsinit) hk).symm
    rw [hrest]

/-- Claim C1 counterexample: with the single snapshot 15, a single
`RangeKeyUnset` at seqnum 11 and `elide_range_key` constantly true, the
stripe including plus infinity is empty, so the claim's reading keeps the
unset (it sits in the stripe of snapshot 15), but the transform elides it —
the source applies the elision to whichever stripe reaches the end of the
key list (compaction.go:221-223 and 233). -/
theorem claimC1Transform_ne_code_at_input :
    claimC1Transform (fun _ _ => true) [15] 0 1 [⟨11, .rkUnset, 3, 0⟩]
      ≠ rangeKeyCompactionTransform (fun _ _ => true) [15] 0 1
          [⟨11, .rkUnset, 3, 0⟩] := by
  decide

/-- Claim C1, amended: for every input span (keys in descending seqnum order)
and ascending snapshot list, the range-key snapshot transform partitions the
span's keys into snapshot stripes (each key assigned to the smallest snapshot
greater than its seqnum), coalesces within each stripe (the highest-seq
`RangeKeySet` at each suffix wins, a `RangeKeyUnset` shadows lower
`RangeKeySet`s at the same suffix, a `RangeKeyDelete` shadows everything
lower in the stripe), and in the stripe containing the span's oldest key —
the last nonempty stripe, not necessarily the one including plus infinity —
it additionally removes `RangeKeyUnset` and `RangeKeyDelete` keys if and only
if `elide_range_key(start, end)` returns true. -/
theorem rangeKeyCompactionTransform_eq_amended
    (elideRangeKey : Nat → Nat → Bool) (snapshots : List Nat)
    (sStart sEnd : Nat) (keys : List RKey)
    (hs : List.Pairwise (· < ·) snapshots)
    (hk : List.Pairwise (fun a b : RKey => b.seq ≤ a.seq) keys) :
    rangeKeyCompactionTransform elideRangeKey snapshots sStart sEnd keys
      = amendedC1Transform elideRangeKey snapshots sStart sEnd keys := by
  unfold rangeKeyCompactionTransform amendedC1Transform
  exact transformGo_eq_flatMap (elideRangeKey sStart sEnd) snapshots keys hs hk

/-- Witness for `rangeKeyCompactionTransform_eq_amended` on one of the
repository's own datadriven test vectors. -/
theorem rangeKeyCompactionTransform_eq_amended_witness :
    rangeKeyCompactionTransform (fun _ _ => true) [3, 10, 15] 0 1
        [⟨11, .rkDel, 0, 0⟩, ⟨8, .rkSet, 3, 5⟩, ⟨4, .rkSet, 3, 3⟩,
         ⟨3, .rkUnset, 4, 0⟩, ⟨2, .rkSet, 3, 2⟩]
      = amendedC1Transform (fun _ _ => true) [3, 10, 15] 0 1
          [⟨11, .rkDel, 0, 0⟩, ⟨8, .rkSet, 3, 5⟩, ⟨4, .rkSet, 3, 3⟩,
           ⟨3, .rkUnset, 4, 0⟩, ⟨2, .rkSet, 3, 2⟩] :=
  rangeKeyCompactionTransform_eq_amended (fun _ _ => true) [3, 10, 15] 0 1
    [⟨11, .rkDel, 0, 0⟩, ⟨8, .rkSet, 3, 5⟩, ⟨4, .rkSet, 3, 3⟩,
     ⟨3, .rkUnset, 4, 0⟩, ⟨2, .rkSet, 3, 2⟩] (by decide) (by decide)

/-- Regression: the transform reproduces the repository's datadriven test
vector for stripe coalescing (snapshots 5, 10, 15, span in use). -/
theorem transform_matches_test_vector_coalesce :
    rangeKeyCompactionTransform (fun _ _ => false) [5, 10, 15] 0 1
        [⟨9, .rkSet, 3, 5⟩, ⟨4, .rkSet, 3, 3⟩, ⟨3, .rkSet, 3, 2⟩]
      = [⟨9, .rkSet, 3, 5⟩, ⟨4, .rkSet, 3, 3⟩] := by
  decide

/-- Regression: the transform reproduces the repository's datadriven test
vector for last-stripe elision with no snapshots and no in-use ranges. -/
theorem transform_matches_test_vector_elide :
    rangeKeyCompactionTransform (fun _ _ => true) [] 0 1
        [⟨11, .rkDel, 0, 0⟩, ⟨8, .rkSet, 3, 5⟩, ⟨4, .rkSet, 3, 3⟩,
         ⟨3, .rkSet, 3, 2⟩]
      = [] := by
  decide

/-- Regression: the transform reproduces the repository's datadriven test
vector preserving a `RangeKeyDelete` over an in-use key range. -/
theorem transform_matches_test_vector_inuse :
    rangeKeyCompactionTransform (fun _ _ => false) [] 0 1
        [⟨11, .rkDel, 0, 0⟩, ⟨8, .rkSet, 3, 5⟩, ⟨4, .rkSet, 3, 3⟩,
         ⟨3, .rkSet, 3, 2⟩]
      = [⟨11, .rkDel, 0, 0⟩] := by
  decide

end Pebble
